import Mathlib

/-!
Shallow embedding of `src/attendance_analyzer.py` (functions
`calculate_work_hours` and `determine_day_status`, together with the
`remove_duplicates` normalizer and the sort that `calculate_work_hours`
applies first).

Timestamps: the analyzer parses `"%d-%b-%y %I:%M %p"`, so every timestamp
it processes has minute precision.  A Python `datetime` is modelled as a
calendar day (an integer ordinal) plus a minute-of-day below 1440;
`datetime` comparison is comparison of the absolute minute count `toMin`,
`.date()` equality is equality of the `day` field, and
`(b - a).total_seconds() / 60` is `b.toMin - a.toMin`.

Python's `sorted` with a key is a stable sort; it is modelled by
Mathlib's `List.insertionSort` on the relation "my datetime is ≤ the
other's", which is also stable.  `float` duration arithmetic only ever
holds whole minutes here, modelled by `Int`; the one division,
`total_hours = total_minutes / 60`, is modelled in `ℚ`.
-/

namespace Attendance

/-- A `datetime` value: calendar day ordinal plus minute of day. -/
structure DateTime where
  day : Int
  minute : Fin 1440
deriving DecidableEq

/-- Absolute minute count of a timestamp; Python `datetime` order and
subtraction correspond to order and subtraction of `toMin`. -/
def DateTime.toMin (t : DateTime) : Int := t.day * 1440 + (t.minute : Int)

/-- The `In/Out` field of a row. -/
inductive EntryType where
  | In : EntryType
  | Out : EntryType
deriving DecidableEq

/-- One attendance entry, as built by the parsing layer:
`{'datetime': dt, 'type': in_out}` (the redundant `'date'` string is
never read by `calculate_work_hours`). -/
structure Entry where
  datetime : DateTime
  type : EntryType
deriving DecidableEq

/-- `sorted(entries, key=lambda x: x['datetime'])`: the comparison
relation of the stable sort. -/
def entryLE (a b : Entry) : Prop := a.datetime.toMin ≤ b.datetime.toMin

instance : DecidableRel entryLE := fun a b =>
  inferInstanceAs (Decidable (a.datetime.toMin ≤ b.datetime.toMin))

instance : IsTotal Entry entryLE :=
  ⟨fun a b => Int.le_total a.datetime.toMin b.datetime.toMin⟩

instance : IsTrans Entry entryLE := ⟨fun _ _ _ => Int.le_trans⟩

/-- `sorted(entries, key=lambda x: x['datetime'])`, a stable sort by
timestamp, modelled by stable insertion sort. -/
def sortEntries (l : List Entry) : List Entry := List.insertionSort entryLE l

/-- Recursion worker of `remove_duplicates`: `seen` is the set of
`(entry['datetime'], entry['type'])` keys already kept. -/
def removeDupAux (seen : List (DateTime × EntryType)) : List Entry → List Entry
  | [] => []
  | e :: rest =>
    if (e.datetime, e.type) ∈ seen then removeDupAux seen rest
    else e :: removeDupAux ((e.datetime, e.type) :: seen) rest

/-- `remove_duplicates(entries)`: drop later occurrences of an already
seen `(datetime, type)` key, preserving order. -/
def remove_duplicates (l : List Entry) : List Entry := removeDupAux [] l

/-- `entries = remove_duplicates(sorted(entries, key=...))`, the
normalization done at the top of `calculate_work_hours`. -/
def normalizeEntries (l : List Entry) : List Entry := remove_duplicates (sortEntries l)

/-- A `work_sessions` element. -/
structure WorkSession where
  start : DateTime
  «end» : DateTime
  duration_minutes : Int
  ongoing : Bool
deriving DecidableEq

/-- A `breaks` element. -/
structure BreakInterval where
  start : DateTime
  «end» : DateTime
  duration_minutes : Int
deriving DecidableEq

/-- `(b - a).total_seconds() / 60`. -/
def durMin (a b : DateTime) : Int := b.toMin - a.toMin

/-- The mutable locals of the event loop of `calculate_work_hours`. -/
structure LoopState where
  work_sessions : List WorkSession
  breaks : List BreakInterval
  current_in : Option DateTime
  last_out : Option DateTime
  first_in : Option DateTime
deriving DecidableEq

/-- Loop locals before the first iteration. -/
def initState : LoopState := ⟨[], [], none, none, none⟩

/-- One iteration of `for entry in entries` in `calculate_work_hours`. -/
def step (s : LoopState) (e : Entry) : LoopState :=
  match e.type with
  | EntryType.In =>
    match s.current_in with
    | some _ => s
    | none =>
      let cin := e.datetime
      let first_in := match s.first_in with
        | none => some cin
        | some f => some f
      let breaks := match s.last_out with
        | some lo => s.breaks ++ [⟨lo, cin, durMin lo cin⟩]
        | none => s.breaks
      { s with current_in := some cin, first_in := first_in, breaks := breaks }
  | EntryType.Out =>
    match s.current_in with
    | some cin =>
      { s with
        work_sessions := s.work_sessions ++ [⟨cin, e.datetime, durMin cin e.datetime, false⟩],
        last_out := some e.datetime,
        current_in := none }
    | none => { s with last_out := some e.datetime }

/-- The whole event loop: normalization followed by the fold. -/
def runPass (entries : List Entry) : LoopState :=
  (normalizeEntries entries).foldl step initState

/-- `sum(session['duration_minutes'] for session in work_sessions)`. -/
def totalMinutesOf (ws : List WorkSession) : Int :=
  (ws.map WorkSession.duration_minutes).sum

/-- The result record of `calculate_work_hours`. -/
structure Summary where
  total_hours : ℚ
  total_minutes : Int
  breaks : List BreakInterval
  first_in : Option DateTime
  last_out : Option DateTime
  work_sessions : List WorkSession
  is_currently_working : Bool
  current_time : Option DateTime
deriving DecidableEq

/-- The early-return summary for `if not entries`. -/
def emptySummary : Summary := ⟨0, 0, [], none, none, [], false, none⟩

/-- Everything after the event loop of `calculate_work_hours`:
the terminal ongoing-session handling and the totals.  `now` is the
value `get_current_ist_time()` would return; the Python code samples it
exactly when `current_in is not None and use_current_time`. -/
def finalize (st : LoopState) (use_current_time : Bool) (now : DateTime) : Summary :=
  match st.current_in, use_current_time with
  | some cin, true =>
    if now.day = cin.day ∧ cin.toMin < now.toMin then
      let ws := st.work_sessions ++ [⟨cin, now, durMin cin now, true⟩]
      { total_hours := (totalMinutesOf ws : ℚ) / 60,
        total_minutes := totalMinutesOf ws,
        breaks := st.breaks, first_in := st.first_in, last_out := st.last_out,
        work_sessions := ws, is_currently_working := true, current_time := some now }
    else
      { total_hours := (totalMinutesOf st.work_sessions : ℚ) / 60,
        total_minutes := totalMinutesOf st.work_sessions,
        breaks := st.breaks, first_in := st.first_in, last_out := st.last_out,
        work_sessions := st.work_sessions, is_currently_working := false,
        current_time := some now }
  | _, _ =>
    { total_hours := (totalMinutesOf st.work_sessions : ℚ) / 60,
      total_minutes := totalMinutesOf st.work_sessions,
      breaks := st.breaks, first_in := st.first_in, last_out := st.last_out,
      work_sessions := st.work_sessions, is_currently_working := false,
      current_time := none }

/-- `calculate_work_hours(entries, use_current_time)`, with the single
wall-clock reading `now` passed explicitly. -/
def calculate_work_hours (entries : List Entry) (use_current_time : Bool)
    (now : DateTime) : Summary :=
  if entries = [] then emptySummary
  else finalize (runPass entries) use_current_time now

/-- `determine_day_status(total_hours)`. -/
def determine_day_status (total_hours : ℚ) : String :=
  if total_hours ≥ 8 then "Full Day"
  else if total_hours ≥ 4 then "Half Day"
  else "Incomplete Day"

/-- A well-formed session: `start ≤ end` and `duration_minutes` is the
minute difference. -/
def wfS (w : WorkSession) : Prop :=
  w.start.toMin ≤ w.«end».toMin ∧ w.duration_minutes = w.«end».toMin - w.start.toMin

/-- A well-formed break: `start ≤ end` and `duration_minutes` is the
minute difference. -/
def wfB (b : BreakInterval) : Prop :=
  b.start.toMin ≤ b.«end».toMin ∧ b.duration_minutes = b.«end».toMin - b.start.toMin

/-- Session `w₁` ends no later than session `w₂` starts. -/
def sessionAdj (w₁ w₂ : WorkSession) : Prop := w₁.«end».toMin ≤ w₂.start.toMin

/-- Break `b₁` ends no later than break `b₂` starts. -/
def breakAdj (b₁ b₂ : BreakInterval) : Prop := b₁.«end».toMin ≤ b₂.start.toMin

/-- Loop invariant of the event pass: `rest` is the not-yet-processed
suffix of the (sorted) entry list. -/
structure Inv (s : LoopState) (rest : List Entry) : Prop where
  ws_wf : ∀ w ∈ s.work_sessions, wfS w
  br_wf : ∀ b ∈ s.breaks, wfB b
  ws_chain : List.Chain' sessionAdj s.work_sessions
  br_chain : List.Chain' breakAdj s.breaks
  cin_lo : ∀ c, s.current_in = some c → ∀ e ∈ rest, c.toMin ≤ e.datetime.toMin
  lout_lo : ∀ o, s.last_out = some o → ∀ e ∈ rest, o.toMin ≤ e.datetime.toMin
  ws_lo : ∀ w ∈ s.work_sessions, ∀ e ∈ rest, w.«end».toMin ≤ e.datetime.toMin
  br_lo : ∀ b ∈ s.breaks, ∀ e ∈ rest, b.«end».toMin ≤ e.datetime.toMin
  ws_cin : ∀ w ∈ s.work_sessions, ∀ c, s.current_in = some c → w.«end».toMin ≤ c.toMin
  br_lout : s.current_in = none → ∀ b ∈ s.breaks, ∀ o, s.last_out = some o →
    b.«end».toMin ≤ o.toMin

/-- 09:00 on day 0. -/
def t0900 : DateTime := ⟨0, ⟨540, by decide⟩⟩

/-- 09:30 on day 0. -/
def t0930 : DateTime := ⟨0, ⟨570, by decide⟩⟩

/-- 10:00 on day 0. -/
def t1000 : DateTime := ⟨0, ⟨600, by decide⟩⟩

/-- 11:00 on day 0. -/
def t1100 : DateTime := ⟨0, ⟨660, by decide⟩⟩

/-- 12:00 on day 0. -/
def t1200 : DateTime := ⟨0, ⟨720, by decide⟩⟩

/-- 09:30 on day 1, the calendar day after `t0900`. -/
def nextday0930 : DateTime := ⟨1, ⟨570, by decide⟩⟩

end Attendance

namespace Attendance

theorem DateTime.toMin_inj {a b : DateTime} (h : a.toMin = b.toMin) : a = b := by
  obtain ⟨da, ma⟩ := a
  obtain ⟨db, mb⟩ := b
  have hma := ma.isLt
  have hmb := mb.isLt
  simp only [DateTime.toMin] at h
  have hday : da = db ∧ (ma : Nat) = (mb : Nat) := by omega
  obtain ⟨h1, h2⟩ := hday
  subst h1
  congr 1
  exact Fin.ext h2

theorem removeDupAux_sublist : ∀ (seen : List (DateTime × EntryType)) (l : List Entry),
    (removeDupAux seen l).Sublist l := by
  intro seen l
  induction l generalizing seen with
  | nil => simp [removeDupAux]
  | cons e rest ih =>
    simp only [removeDupAux]
    split
    · exact (ih seen).trans (List.sublist_cons_self e rest)
    · exact (ih _).cons₂ e

theorem normalizeEntries_pairwise (l : List Entry) :
    List.Pairwise entryLE (normalizeEntries l) :=
  List.Pairwise.sublist (removeDupAux_sublist [] (sortEntries l))
    (List.sorted_insertionSort entryLE l)

theorem chain'_append_single {α : Type} {R : α → α → Prop} {l : List α} {x : α}
    (hc : List.Chain' R l) (hx : ∀ a ∈ l, R a x) : List.Chain' R (l ++ [x]) := by
  rw [List.chain'_append]
  refine ⟨hc, List.chain'_singleton x, ?_⟩
  intro a ha y hy
  have ha' : a ∈ l := List.mem_of_mem_getLast? ha
  have hyx : x = y := by simpa using hy
  subst hyx
  exact hx a ha'

theorem Inv.weaken {s : LoopState} {e : Entry} {rest : List Entry}
    (h : Inv s (e :: rest)) : Inv s rest := by
  obtain ⟨ws_wf, br_wf, ws_chain, br_chain, cin_lo, lout_lo, ws_lo, br_lo, ws_cin, br_lout⟩ := h
  exact ⟨ws_wf, br_wf, ws_chain, br_chain,
    fun c hc x hx => cin_lo c hc x (List.mem_cons_of_mem _ hx),
    fun o ho x hx => lout_lo o ho x (List.mem_cons_of_mem _ hx),
    fun w hw x hx => ws_lo w hw x (List.mem_cons_of_mem _ hx),
    fun b hb x hx => br_lo b hb x (List.mem_cons_of_mem _ hx),
    ws_cin, br_lout⟩

theorem step_inv {s : LoopState} {e : Entry} {rest : List Entry}
    (hhead : ∀ x ∈ rest, e.datetime.toMin ≤ x.datetime.toMin)
    (h : Inv s (e :: rest)) : Inv (step s e) rest := by
  obtain ⟨ws_wf, br_wf, ws_chain, br_chain, cin_lo, lout_lo, ws_lo, br_lo, ws_cin, br_lout⟩ := h
  cases he : e.type with
  | In =>
    cases hc : s.current_in with
    | some c =>
      have hstep : step s e = s := by simp [step, he, hc]
      rw [hstep]
      exact Inv.weaken ⟨ws_wf, br_wf, ws_chain, br_chain, cin_lo, lout_lo, ws_lo, br_lo,
        ws_cin, br_lout⟩
    | none =>
      cases hl : s.last_out with
      | none =>
        have hstep : step s e =
            { s with current_in := some e.datetime,
                     first_in := match s.first_in with
                       | none => some e.datetime
                       | some f => some f } := by
          simp [step, he, hc, hl]
        rw [hstep]
        refine ⟨ws_wf, br_wf, ws_chain, br_chain, ?_, ?_, ?_, ?_, ?_, ?_⟩
        · intro c hcin x hx
          simp only [Option.some.injEq] at hcin
          subst hcin
          exact hhead x hx
        · intro o ho
          simp only [hl] at ho
          exact absurd ho (by simp)
        · intro w hw x hx
          exact ws_lo w hw x (List.mem_cons_of_mem _ hx)
        · intro b hb x hx
          exact br_lo b hb x (List.mem_cons_of_mem _ hx)
        · intro w hw c hcin
          simp only [Option.some.injEq] at hcin
          subst hcin
          exact ws_lo w hw e (List.mem_cons_self _ _)
        · intro hnone
          exact absurd hnone (by simp)
      | some lo =>
        have hstep : step s e =
            { s with current_in := some e.datetime,
                     first_in := match s.first_in with
                       | none => some e.datetime
                       | some f => some f,
                     breaks := s.breaks ++ [⟨lo, e.datetime, durMin lo e.datetime⟩] } := by
          simp [step, he, hc, hl]
        rw [hstep]
        have hloe : lo.toMin ≤ e.datetime.toMin :=
          lout_lo lo hl e (List.mem_cons_self _ _)
        refine ⟨ws_wf, ?_, ws_chain, ?_, ?_, ?_, ?_, ?_, ?_, ?_⟩
        · intro b hb
          rcases List.mem_append.mp hb with hb | hb
          · exact br_wf b hb
          · simp only [List.mem_singleton] at hb
            subst hb
            exact ⟨hloe, rfl⟩
        · refine chain'_append_single br_chain ?_
          intro b hb
          exact br_lout hc b hb lo hl
        · intro c hcin x hx
          simp only [Option.some.injEq] at hcin
          subst hcin
          exact hhead x hx
        · intro o ho x hx
          exact lout_lo o ho x (List.mem_cons_of_mem _ hx)
        · intro w hw x hx
          exact ws_lo w hw x (List.mem_cons_of_mem _ hx)
        · intro b hb x hx
          rcases List.mem_append.mp hb with hb | hb
          · exact br_lo b hb x (List.mem_cons_of_mem _ hx)
          · simp only [List.mem_singleton] at hb
            subst hb
            exact hhead x hx
        · intro w hw c hcin
          simp only [Option.some.injEq] at hcin
          subst hcin
          exact ws_lo w hw e (List.mem_cons_self _ _)
        · intro hnone
          exact absurd hnone (by simp)
  | Out =>
    cases hc : s.current_in with
    | some cin =>
      have hstep : step s e =
          { s with
            work_sessions :=
              s.work_sessions ++ [⟨cin, e.datetime, durMin cin e.datetime, false⟩],
            last_out := some e.datetime,
            current_in := none } := by
        simp [step, he, hc]
      rw [hstep]
      have hcine : cin.toMin ≤ e.datetime.toMin :=
        cin_lo cin hc e (List.mem_cons_self _ _)
      refine ⟨?_, br_wf, ?_, br_chain, ?_, ?_, ?_, ?_, ?_, ?_⟩
      · intro w hw
        rcases List.mem_append.mp hw with hw | hw
        · exact ws_wf w hw
        · simp only [List.mem_singleton] at hw
          subst hw
          exact ⟨hcine, rfl⟩
      · refine chain'_append_single ws_chain ?_
        intro w hw
        exact ws_cin w hw cin hc
      · intro c hcin
        exact absurd hcin (by simp)
      · intro o ho x hx
        simp only [Option.some.injEq] at ho
        subst ho
        exact hhead x hx
      · intro w hw x hx
        rcases List.mem_append.mp hw with hw | hw
        · exact ws_lo w hw x (List.mem_cons_of_mem _ hx)
        · simp only [List.mem_singleton] at hw
          subst hw
          exact hhead x hx
      · intro b hb x hx
        exact br_lo b hb x (List.mem_cons_of_mem _ hx)
      · intro w hw c hcin
        exact absurd hcin (by simp)
      · intro _ b hb o ho
        simp only [Option.some.injEq] at ho
        subst ho
        exact br_lo b hb e (List.mem_cons_self _ _)
    | none =>
      have hstep : step s e = { s with last_out := some e.datetime } := by
        simp [step, he, hc]
      rw [hstep]
      refine ⟨ws_wf, br_wf, ws_chain, br_chain, ?_, ?_, ?_, ?_, ?_, ?_⟩
      · intro c hcin
        simp only [hc] at hcin
        exact absurd hcin (by simp)
      · intro o ho x hx
        simp only [Option.some.injEq] at ho
        subst ho
        exact hhead x hx
      · intro w hw x hx
        exact ws_lo w hw x (List.mem_cons_of_mem _ hx)
      · intro b hb x hx
        exact br_lo b hb x (List.mem_cons_of_mem _ hx)
      · intro w hw c hcin
        simp only [hc] at hcin
        exact absurd hcin (by simp)
      · intro _ b hb o ho
        simp only [Option.some.injEq] at ho
        subst ho
        exact br_lo b hb e (List.mem_cons_self _ _)

theorem foldl_inv : ∀ (l : List Entry) (s : LoopState),
    List.Pairwise entryLE l → Inv s l → Inv (l.foldl step s) [] := by
  intro l
  induction l with
  | nil => intro s _ h; exact h
  | cons e rest ih =>
    intro s hp h
    rw [List.pairwise_cons] at hp
    exact ih (step s e) hp.2 (step_inv hp.1 h)

theorem initState_inv (l : List Entry) : Inv initState l := by
  refine ⟨?_, ?_, ?_, ?_, ?_, ?_, ?_, ?_, ?_, ?_⟩ <;>
    simp [initState, List.chain'_nil]

theorem runPass_inv (l : List Entry) : Inv (runPass l) [] :=
  foldl_inv _ initState (normalizeEntries_pairwise l) (initState_inv _)

end Attendance

namespace Attendance

theorem finalize_none {st : LoopState} {u : Bool} {now : DateTime}
    (hc : st.current_in = none) :
    finalize st u now =
      { total_hours := (totalMinutesOf st.work_sessions : ℚ) / 60,
        total_minutes := totalMinutesOf st.work_sessions,
        breaks := st.breaks, first_in := st.first_in, last_out := st.last_out,
        work_sessions := st.work_sessions, is_currently_working := false,
        current_time := none } := by
  unfold finalize
  rw [hc]

theorem finalize_false {st : LoopState} {now : DateTime} :
    finalize st false now =
      { total_hours := (totalMinutesOf st.work_sessions : ℚ) / 60,
        total_minutes := totalMinutesOf st.work_sessions,
        breaks := st.breaks, first_in := st.first_in, last_out := st.last_out,
        work_sessions := st.work_sessions, is_currently_working := false,
        current_time := none } := by
  unfold finalize
  rcases hc : st.current_in with _ | c <;> rfl

theorem finalize_open_hit {st : LoopState} {c now : DateTime}
    (hc : st.current_in = some c) (h : now.day = c.day ∧ c.toMin < now.toMin) :
    finalize st true now =
      { total_hours :=
          (totalMinutesOf (st.work_sessions ++ [⟨c, now, durMin c now, true⟩]) : ℚ) / 60,
        total_minutes := totalMinutesOf (st.work_sessions ++ [⟨c, now, durMin c now, true⟩]),
        breaks := st.breaks, first_in := st.first_in, last_out := st.last_out,
        work_sessions := st.work_sessions ++ [⟨c, now, durMin c now, true⟩],
        is_currently_working := true, current_time := some now } := by
  unfold finalize
  rw [hc]
  simp only [if_pos h]

theorem finalize_open_miss {st : LoopState} {c now : DateTime}
    (hc : st.current_in = some c) (h : ¬(now.day = c.day ∧ c.toMin < now.toMin)) :
    finalize st true now =
      { total_hours := (totalMinutesOf st.work_sessions : ℚ) / 60,
        total_minutes := totalMinutesOf st.work_sessions,
        breaks := st.breaks, first_in := st.first_in, last_out := st.last_out,
        work_sessions := st.work_sessions, is_currently_working := false,
        current_time := some now } := by
  unfold finalize
  rw [hc]
  simp only [if_neg h]

theorem runPass_nil : runPass [] = initState := rfl

theorem ne_nil_of_open {l : List Entry} {c : DateTime}
    (h : (runPass l).current_in = some c) : l ≠ [] := by
  intro hl
  subst hl
  rw [runPass_nil] at h
  exact absurd h (by simp [initState])

/-- Provenance of the loop bookkeeping: every recorded timestamp comes
from an entry satisfying `P`. -/
def Src (P : Entry → Prop) (s : LoopState) : Prop :=
  (∀ b ∈ s.breaks,
      (∃ x, P x ∧ x.type = EntryType.Out ∧ x.datetime = b.start) ∧
      (∃ x, P x ∧ x.type = EntryType.In ∧ x.datetime = b.«end»)) ∧
  (∀ o, s.last_out = some o → ∃ x, P x ∧ x.type = EntryType.Out ∧ x.datetime = o) ∧
  (∀ c, s.current_in = some c → ∃ x, P x ∧ x.type = EntryType.In ∧ x.datetime = c)

theorem step_src {P : Entry → Prop} {s : LoopState} {e : Entry} (hPe : P e)
    (h : Src P s) : Src P (step s e) := by
  obtain ⟨hbr, hlo, hci⟩ := h
  cases he : e.type with
  | In =>
    cases hc : s.current_in with
    | some c =>
      have hstep : step s e = s := by simp [step, he, hc]
      rw [hstep]
      exact ⟨hbr, hlo, hci⟩
    | none =>
      cases hl : s.last_out with
      | none =>
        have hstep : step s e =
            { s with current_in := some e.datetime,
                     first_in := match s.first_in with
                       | none => some e.datetime
                       | some f => some f } := by
          simp [step, he, hc, hl]
        rw [hstep]
        refine ⟨hbr, ?_, ?_⟩
        · intro o ho
          exact hlo o ho
        · intro c hcc
          simp only [Option.some.injEq] at hcc
          exact ⟨e, hPe, he, hcc⟩
      | some lo =>
        have hstep : step s e =
            { s with current_in := some e.datetime,
                     first_in := match s.first_in with
                       | none => some e.datetime
                       | some f => some f,
                     breaks := s.breaks ++ [⟨lo, e.datetime, durMin lo e.datetime⟩] } := by
          simp [step, he, hc, hl]
        rw [hstep]
        refine ⟨?_, ?_, ?_⟩
        · intro b hb
          rcases List.mem_append.mp hb with hb | hb
          · exact hbr b hb
          · simp only [List.mem_singleton] at hb
            subst hb
            exact ⟨hlo lo hl, ⟨e, hPe, he, rfl⟩⟩
        · intro o ho
          exact hlo o ho
        · intro c hcc
          simp only [Option.some.injEq] at hcc
          exact ⟨e, hPe, he, hcc⟩
  | Out =>
    cases hc : s.current_in with
    | some cin =>
      have hstep : step s e =
          { s with
            work_sessions :=
              s.work_sessions ++ [⟨cin, e.datetime, durMin cin e.datetime, false⟩],
            last_out := some e.datetime,
            current_in := none } := by
        simp [step, he, hc]
      rw [hstep]
      refine ⟨hbr, ?_, ?_⟩
      · intro o ho
        simp only [Option.some.injEq] at ho
        exact ⟨e, hPe, he, ho⟩
      · intro c hcc
        exact absurd hcc (by simp)
    | none =>
      have hstep : step s e = { s with last_out := some e.datetime } := by
        simp [step, he, hc]
      rw [hstep]
      refine ⟨hbr, ?_, ?_⟩
      · intro o ho
        simp only [Option.some.injEq] at ho
        exact ⟨e, hPe, he, ho⟩
      · intro c hcc
        simp only [hc] at hcc
        exact absurd hcc (by simp)

theorem foldl_src {P : Entry → Prop} : ∀ (l : List Entry) (s : LoopState),
    (∀ e ∈ l, P e) → Src P s → Src P (l.foldl step s) := by
  intro l
  induction l with
  | nil => intro s _ h; exact h
  | cons e rest ih =>
    intro s hl h
    exact ih (step s e) (fun x hx => hl x (List.mem_cons_of_mem _ hx))
      (step_src (hl e (List.mem_cons_self _ _)) h)

theorem normalizeEntries_subset {l : List Entry} : ∀ e ∈ normalizeEntries l, e ∈ l := by
  intro e he
  have h1 : e ∈ sortEntries l := (removeDupAux_sublist [] (sortEntries l)).subset he
  exact (List.perm_insertionSort entryLE l).subset h1

theorem runPass_src (l : List Entry) : Src (fun e => e ∈ l) (runPass l) := by
  refine foldl_src _ initState normalizeEntries_subset ?_
  refine ⟨?_, ?_, ?_⟩ <;> simp [initState]

theorem eq_of_perm_sorted_nodup_keys :
    ∀ (l₁ l₂ : List Entry), l₁.Perm l₂ → List.Pairwise entryLE l₁ →
      List.Pairwise entryLE l₂ → (l₁.map Entry.datetime).Nodup → l₁ = l₂ := by
  intro l₁
  induction l₁ with
  | nil =>
    intro l₂ hp _ _ _
    exact (hp.symm.eq_nil).symm
  | cons a t ih =>
    intro l₂ hp hs₁ hs₂ hnd
    cases l₂ with
    | nil => exact absurd hp.eq_nil (by simp)
    | cons b t₂ =>
      have hb : b = a := by
        have hbmem : b ∈ a :: t := hp.symm.subset (List.mem_cons_self b t₂)
        rcases List.mem_cons.mp hbmem with h | h
        · exact h
        · exfalso
          have hamem : a ∈ b :: t₂ := hp.subset (List.mem_cons_self a t)
          have hab : entryLE a b := (List.pairwise_cons.mp hs₁).1 b h
          have hba : entryLE b a := by
            rcases List.mem_cons.mp hamem with h' | h'
            · rw [h']
              exact Int.le_refl _
            · exact (List.pairwise_cons.mp hs₂).1 a h'
          have hdt : a.datetime = b.datetime := DateTime.toMin_inj (le_antisymm hab hba)
          have hmem : a.datetime ∈ t.map Entry.datetime := by
            rw [hdt]
            exact List.mem_map_of_mem Entry.datetime h
          rw [List.map_cons, List.nodup_cons] at hnd
          exact hnd.1 hmem
      subst hb
      have htail : t = t₂ := by
        refine ih t₂ hp.cons_inv (List.pairwise_cons.mp hs₁).2
          (List.pairwise_cons.mp hs₂).2 ?_
        rw [List.map_cons, List.nodup_cons] at hnd
        exact hnd.2
      rw [htail]

theorem sortEntries_eq_of_perm {l₁ l₂ : List Entry} (hp : l₁.Perm l₂)
    (hnd : (l₁.map Entry.datetime).Nodup) : sortEntries l₁ = sortEntries l₂ := by
  refine eq_of_perm_sorted_nodup_keys _ _ ?_ ?_ ?_ ?_
  · exact (List.perm_insertionSort entryLE l₁).trans
      (hp.trans (List.perm_insertionSort entryLE l₂).symm)
  · exact List.sorted_insertionSort entryLE l₁
  · exact List.sorted_insertionSort entryLE l₂
  · exact (((List.perm_insertionSort entryLE l₁).map Entry.datetime).symm).nodup hnd

end Attendance

namespace Attendance

theorem finalize_breaks (st : LoopState) (u : Bool) (now : DateTime) :
    (finalize st u now).breaks = st.breaks := by
  rcases hc : st.current_in with _ | c
  · rw [finalize_none hc]
  · cases u
    · rw [finalize_false]
    · by_cases h : now.day = c.day ∧ c.toMin < now.toMin
      · rw [finalize_open_hit hc h]
      · rw [finalize_open_miss hc h]

theorem finalize_sessions_cases (st : LoopState) (u : Bool) (now : DateTime) :
    (finalize st u now).work_sessions = st.work_sessions
    ∨ ∃ c, st.current_in = some c ∧ u = true ∧ now.day = c.day ∧ c.toMin < now.toMin ∧
        (finalize st u now).work_sessions
          = st.work_sessions ++ [⟨c, now, durMin c now, true⟩] := by
  rcases hc : st.current_in with _ | c
  · left; rw [finalize_none hc]
  · cases u
    · left; rw [finalize_false]
    · by_cases h : now.day = c.day ∧ c.toMin < now.toMin
      · right
        exact ⟨c, rfl, rfl, h.1, h.2, by rw [finalize_open_hit hc h]⟩
      · left; rw [finalize_open_miss hc h]

theorem finalize_totals (st : LoopState) (u : Bool) (now : DateTime) :
    (finalize st u now).total_minutes = totalMinutesOf (finalize st u now).work_sessions
    ∧ (finalize st u now).total_hours = ((finalize st u now).total_minutes : ℚ) / 60 := by
  rcases hc : st.current_in with _ | c
  · rw [finalize_none hc]; exact ⟨rfl, rfl⟩
  · cases u
    · rw [finalize_false]; exact ⟨rfl, rfl⟩
    · by_cases h : now.day = c.day ∧ c.toMin < now.toMin
      · rw [finalize_open_hit hc h]; exact ⟨rfl, rfl⟩
      · rw [finalize_open_miss hc h]; exact ⟨rfl, rfl⟩

/-- C5: `determine_day_status` is a pure function of `totalHours` returning
"Full Day" exactly when `totalHours ≥ 8`, "Half Day" exactly when
`4 ≤ totalHours < 8`, and "Incomplete Day" otherwise; in particular
`3.999` gives "Incomplete Day", exactly `4.0` gives "Half Day", and
exactly `8.0` gives "Full Day". -/
theorem C5_day_status_thresholds :
    (∀ q : ℚ,
      (determine_day_status q = "Full Day" ↔ 8 ≤ q)
      ∧ (determine_day_status q = "Half Day" ↔ 4 ≤ q ∧ q < 8)
      ∧ (determine_day_status q = "Incomplete Day" ↔ q < 4))
    ∧ determine_day_status (3999 / 1000) = "Incomplete Day"
    ∧ determine_day_status 4 = "Half Day"
    ∧ determine_day_status 8 = "Full Day" := by
  refine ⟨?_, ?_, ?_, ?_⟩
  · intro q
    unfold determine_day_status
    split_ifs with h1 h2
    · exact ⟨⟨fun _ => h1, fun _ => rfl⟩,
        ⟨fun h => absurd h (by decide), fun h => absurd h1 (by linarith [h.2])⟩,
        ⟨fun h => absurd h (by decide), fun h => absurd h1 (by linarith)⟩⟩
    · exact ⟨⟨fun h => absurd h (by decide), fun h => absurd h h1⟩,
        ⟨fun _ => ⟨h2, not_le.mp h1⟩, fun _ => rfl⟩,
        ⟨fun h => absurd h (by decide), fun h => absurd h2 (not_le.mpr h)⟩⟩
    · exact ⟨⟨fun h => absurd h (by decide), fun h => absurd h h1⟩,
        ⟨fun h => absurd h (by decide), fun h => absurd h.1 h2⟩,
        ⟨fun _ => not_le.mp h2, fun _ => rfl⟩⟩
  · norm_num [determine_day_status]
  · norm_num [determine_day_status]
  · norm_num [determine_day_status]

/-- C6: an In event processed while a session is already open is a no-op:
the loop state is completely unchanged (no new session, no break, same
open In, same `first_in`), so at most one open In is ever tracked. -/
theorem C6_duplicate_in_noop (s : LoopState) (e : Entry) (c : DateTime)
    (he : e.type = EntryType.In) (hc : s.current_in = some c) : step s e = s := by
  simp [step, he, hc]

/-- C6 witness: a duplicate In at 10:00 while 09:00 is open changes nothing. -/
theorem C6_witness :
    step ⟨[], [], some t0900, none, some t0900⟩ ⟨t1000, EntryType.In⟩
      = ⟨[], [], some t0900, none, some t0900⟩ :=
  C6_duplicate_in_noop ⟨[], [], some t0900, none, some t0900⟩ ⟨t1000, EntryType.In⟩
    t0900 rfl rfl

/-- C7: an Out processed while no In is open only updates `last_out`; the
input `[(09:00, Out)]` yields zero sessions, zero breaks,
`last_out = 09:00`, `total_minutes = 0` and day status "Incomplete Day". -/
theorem C7_out_while_idle :
    (∀ (s : LoopState) (e : Entry), e.type = EntryType.Out → s.current_in = none →
      step s e = { s with last_out := some e.datetime })
    ∧ (∀ (u : Bool) (now : DateTime),
      (calculate_work_hours [⟨t0900, EntryType.Out⟩] u now).work_sessions = []
      ∧ (calculate_work_hours [⟨t0900, EntryType.Out⟩] u now).breaks = []
      ∧ (calculate_work_hours [⟨t0900, EntryType.Out⟩] u now).last_out = some t0900
      ∧ (calculate_work_hours [⟨t0900, EntryType.Out⟩] u now).total_minutes = 0
      ∧ determine_day_status (calculate_work_hours [⟨t0900, EntryType.Out⟩] u now).total_hours
          = "Incomplete Day") := by
  constructor
  · intro s e he hc
    simp [step, he, hc]
  · intro u now
    have hcw : calculate_work_hours [⟨t0900, EntryType.Out⟩] u now
        = finalize (runPass [⟨t0900, EntryType.Out⟩]) u now := by
      simp [calculate_work_hours]
    have hc : (runPass [⟨t0900, EntryType.Out⟩]).current_in = none := by decide
    have hws : (runPass [⟨t0900, EntryType.Out⟩]).work_sessions = [] := by decide
    have hbr : (runPass [⟨t0900, EntryType.Out⟩]).breaks = [] := by decide
    have hlo : (runPass [⟨t0900, EntryType.Out⟩]).last_out = some t0900 := by decide
    rw [hcw, finalize_none hc]
    refine ⟨hws, hbr, hlo, ?_, ?_⟩
    · rw [hws]; rfl
    · rw [hws]
      norm_num [totalMinutesOf, determine_day_status]

/-- C7 witness: the state-transition part at a concrete idle state, and
the scenario at a concrete clock reading. -/
theorem C7_witness :
    step ⟨[], [], none, none, none⟩ ⟨t0900, EntryType.Out⟩
      = ⟨[], [], none, some t0900, none⟩
    ∧ (calculate_work_hours [⟨t0900, EntryType.Out⟩] true t0930).last_out = some t0900 := by
  constructor
  · exact C7_out_while_idle.1 ⟨[], [], none, none, none⟩ ⟨t0900, EntryType.Out⟩ rfl rfl
  · exact (C7_out_while_idle.2 true t0930).2.2.1

end Attendance

namespace Attendance

/-- C1: when the pass ends with an open In `c`, exactly one extra ongoing
session from `c` to the current-time reading is synthesized, with
`is_currently_working = true`, precisely when `use_current_time` is
enabled, the reading is on the same calendar date as `c`, and strictly
after it; otherwise no ongoing session is added and the open In
contributes nothing to `total_minutes`. -/
theorem C1_ongoing_session_synthesis (l : List Entry) (u : Bool) (now c : DateTime)
    (hc : (runPass l).current_in = some c) :
    ((u = true ∧ now.day = c.day ∧ c.toMin < now.toMin) →
      (calculate_work_hours l u now).work_sessions
        = (runPass l).work_sessions ++ [⟨c, now, durMin c now, true⟩]
      ∧ (calculate_work_hours l u now).is_currently_working = true
      ∧ (calculate_work_hours l u now).current_time = some now)
    ∧ (¬(u = true ∧ now.day = c.day ∧ c.toMin < now.toMin) →
      (calculate_work_hours l u now).work_sessions = (runPass l).work_sessions
      ∧ (calculate_work_hours l u now).is_currently_working = false
      ∧ (calculate_work_hours l u now).total_minutes
          = totalMinutesOf (runPass l).work_sessions) := by
  have hne : l ≠ [] := ne_nil_of_open hc
  have hcw : calculate_work_hours l u now = finalize (runPass l) u now := by
    simp [calculate_work_hours, hne]
  constructor
  · rintro ⟨hu, hcond⟩
    subst hu
    rw [hcw, finalize_open_hit hc hcond]
    exact ⟨rfl, rfl, rfl⟩
  · intro hmiss
    cases u with
    | false =>
      rw [hcw, finalize_false]
      exact ⟨rfl, rfl, rfl⟩
    | true =>
      have hcond : ¬(now.day = c.day ∧ c.toMin < now.toMin) := fun h => hmiss ⟨rfl, h⟩
      rw [hcw, finalize_open_miss hc hcond]
      exact ⟨rfl, rfl, rfl⟩

/-- C1 witness: a lone 09:00 In with a same-day 09:30 reading yields the
single ongoing session. -/
theorem C1_witness :
    (runPass [⟨t0900, EntryType.In⟩]).current_in = some t0900
    ∧ (calculate_work_hours [⟨t0900, EntryType.In⟩] true t0930).work_sessions
        = (runPass [⟨t0900, EntryType.In⟩]).work_sessions
            ++ [⟨t0900, t0930, durMin t0900 t0930, true⟩]
    ∧ (calculate_work_hours [⟨t0900, EntryType.In⟩] true t0930).is_currently_working = true := by
  have h := C1_ongoing_session_synthesis [⟨t0900, EntryType.In⟩] true t0930 t0900 (by decide)
  have h2 := h.1 ⟨rfl, by decide, by decide⟩
  exact ⟨by decide, h2.1, h2.2.1⟩

/-- C8: every work session of the result satisfies `start ≤ end` with
`duration_minutes` equal to the minute difference and non-negative, and
every break interval likewise has a non-negative duration equal to its
minute difference. -/
theorem C8_interval_wellformed (l : List Entry) (u : Bool) (now : DateTime) :
    (∀ w ∈ (calculate_work_hours l u now).work_sessions,
      w.start.toMin ≤ w.«end».toMin
      ∧ w.duration_minutes = w.«end».toMin - w.start.toMin
      ∧ 0 ≤ w.duration_minutes)
    ∧ (∀ b ∈ (calculate_work_hours l u now).breaks,
      b.start.toMin ≤ b.«end».toMin
      ∧ b.duration_minutes = b.«end».toMin - b.start.toMin
      ∧ 0 ≤ b.duration_minutes) := by
  by_cases hl : l = []
  · subst hl
    simp [calculate_work_hours, emptySummary]
  · have hcw : calculate_work_hours l u now = finalize (runPass l) u now := by
      simp [calculate_work_hours, hl]
    have inv := runPass_inv l
    rw [hcw]
    constructor
    · intro w hw
      have hwf : wfS w := by
        rcases finalize_sessions_cases (runPass l) u now with hws | ⟨c, hc, _, _, hlt, hws⟩
        · rw [hws] at hw
          exact inv.ws_wf w hw
        · rw [hws] at hw
          rcases List.mem_append.mp hw with hw | hw
          · exact inv.ws_wf w hw
          · simp only [List.mem_singleton] at hw
            subst hw
            exact ⟨le_of_lt hlt, rfl⟩
      obtain ⟨h1, h2⟩ := hwf
      exact ⟨h1, h2, by omega⟩
    · intro b hb
      rw [finalize_breaks] at hb
      obtain ⟨h1, h2⟩ := inv.br_wf b hb
      exact ⟨h1, h2, by omega⟩

/-- C8 witness: the 09:00–10:00 session of a matched In/Out pair is
well-formed. -/
theorem C8_witness :
    (⟨t0900, t1000, 60, false⟩ : WorkSession)
        ∈ (calculate_work_hours [⟨t0900, EntryType.In⟩, ⟨t1000, EntryType.Out⟩]
            false t1100).work_sessions
    ∧ t0900.toMin ≤ t1000.toMin ∧ (60 : Int) = t1000.toMin - t0900.toMin ∧ (0 : Int) ≤ 60 := by
  have h := (C8_interval_wellformed [⟨t0900, EntryType.In⟩, ⟨t1000, EntryType.Out⟩]
    false t1100).1 ⟨t0900, t1000, 60, false⟩ (by decide)
  exact ⟨by decide, h.1, h.2.1, h.2.2⟩

/-- C9: the returned totals are consistent: `total_minutes` is the sum of
the durations of all returned sessions (ongoing included) and
`total_hours` is `total_minutes / 60`. -/
theorem C9_totals_consistent (l : List Entry) (u : Bool) (now : DateTime) :
    (calculate_work_hours l u now).total_minutes
      = totalMinutesOf (calculate_work_hours l u now).work_sessions
    ∧ (calculate_work_hours l u now).total_hours
      = ((calculate_work_hours l u now).total_minutes : ℚ) / 60 := by
  by_cases hl : l = []
  · subst hl
    refine ⟨rfl, ?_⟩
    show (0 : ℚ) = ((0 : Int) : ℚ) / 60
    norm_num
  · have hcw : calculate_work_hours l u now = finalize (runPass l) u now := by
      simp [calculate_work_hours, hl]
    rw [hcw]
    exact finalize_totals (runPass l) u now

/-- C10: the returned session list is chronologically ordered and
pairwise disjoint (each session ends no later than the next starts), and
the break list is likewise ordered. -/
theorem C10_chronological_order (l : List Entry) (u : Bool) (now : DateTime) :
    List.Chain' sessionAdj (calculate_work_hours l u now).work_sessions
    ∧ List.Chain' breakAdj (calculate_work_hours l u now).breaks := by
  by_cases hl : l = []
  · subst hl
    simp [calculate_work_hours, emptySummary]
  · have hcw : calculate_work_hours l u now = finalize (runPass l) u now := by
      simp [calculate_work_hours, hl]
    have inv := runPass_inv l
    rw [hcw]
    constructor
    · rcases finalize_sessions_cases (runPass l) u now with hws | ⟨c, hc, _, _, _, hws⟩
      · rw [hws]
        exact inv.ws_chain
      · rw [hws]
        refine chain'_append_single inv.ws_chain ?_
        intro w hw
        exact inv.ws_cin w hw c hc
    · rw [finalize_breaks]
      exact inv.br_chain

end Attendance

namespace Attendance

/-- C2 counterexample: for the input `[(09:00, Out), (10:00, In)]` the
code emits the break 09:00–10:00 although the session list is empty, so
neither flank of the break is a work session. -/
theorem C2_counterexample :
    ¬ (∀ b ∈ (calculate_work_hours [⟨t0900, EntryType.Out⟩, ⟨t1000, EntryType.In⟩]
          false t1100).breaks,
        (∃ w ∈ (calculate_work_hours [⟨t0900, EntryType.Out⟩, ⟨t1000, EntryType.In⟩]
            false t1100).work_sessions, w.«end» = b.start)
        ∧ (∃ w ∈ (calculate_work_hours [⟨t0900, EntryType.Out⟩, ⟨t1000, EntryType.In⟩]
            false t1100).work_sessions, w.start = b.«end»)) := by
  decide

/-- C2 amended: every break's `start` is the timestamp of some Out event
of the input and its `end` is the timestamp of some In event of the
input (the flanking events need not bound emitted sessions: a lone Out
or a trailing unmatched In also bounds a break). -/
theorem C2_break_endpoints (l : List Entry) (u : Bool) (now : DateTime) :
    ∀ b ∈ (calculate_work_hours l u now).breaks,
      (∃ x ∈ l, x.type = EntryType.Out ∧ x.datetime = b.start)
      ∧ (∃ x ∈ l, x.type = EntryType.In ∧ x.datetime = b.«end») := by
  intro b hb
  by_cases hl : l = []
  · subst hl
    simp [calculate_work_hours, emptySummary] at hb
  · have hcw : calculate_work_hours l u now = finalize (runPass l) u now := by
      simp [calculate_work_hours, hl]
    rw [hcw, finalize_breaks] at hb
    obtain ⟨hbr, _, _⟩ := runPass_src l
    obtain ⟨⟨x, hx, hxt, hxd⟩, ⟨y, hy, hyt, hyd⟩⟩ := hbr b hb
    exact ⟨⟨x, hx, hxt, hxd⟩, ⟨y, hy, hyt, hyd⟩⟩

/-- C2 witness: the 13:00-style break of a two-session day has an Out at
its start and an In at its end. -/
theorem C2_witness :
    (⟨t1000, t1100, 60⟩ : BreakInterval)
        ∈ (calculate_work_hours
            [⟨t0900, EntryType.In⟩, ⟨t1000, EntryType.Out⟩,
             ⟨t1100, EntryType.In⟩, ⟨t1200, EntryType.Out⟩] false t1200).breaks
    ∧ (∃ x ∈ [⟨t0900, EntryType.In⟩, ⟨t1000, EntryType.Out⟩,
             (⟨t1100, EntryType.In⟩ : Entry), ⟨t1200, EntryType.Out⟩],
        x.type = EntryType.Out ∧ x.datetime = (⟨t1000, t1100, 60⟩ : BreakInterval).start)
    ∧ (∃ x ∈ [⟨t0900, EntryType.In⟩, ⟨t1000, EntryType.Out⟩,
             (⟨t1100, EntryType.In⟩ : Entry), ⟨t1200, EntryType.Out⟩],
        x.type = EntryType.In ∧ x.datetime = (⟨t1000, t1100, 60⟩ : BreakInterval).«end») := by
  have h := C2_break_endpoints
    [⟨t0900, EntryType.In⟩, ⟨t1000, EntryType.Out⟩,
     ⟨t1100, EntryType.In⟩, ⟨t1200, EntryType.Out⟩] false t1200
    ⟨t1000, t1100, 60⟩ (by decide)
  exact ⟨by decide, h.1, h.2⟩

/-- C3 counterexample: a lone 09:00 In with the reading on the next
calendar day leaves `is_currently_working = false` yet returns the
reading in `current_time`, so "`currentTime` set iff
`isCurrentlyWorking`" fails. -/
theorem C3_counterexample :
    ¬ (((calculate_work_hours [⟨t0900, EntryType.In⟩] true nextday0930).current_time ≠ none)
        ↔ (calculate_work_hours [⟨t0900, EntryType.In⟩] true nextday0930).is_currently_working
            = true) := by
  decide

/-- C3 amended: `current_time` carries the wall-clock reading exactly
when the pass ends with an open In and `use_current_time` is enabled
(the reading is sampled then, whether or not an ongoing session is
synthesized); it is `none` otherwise. -/
theorem C3_current_time_iff_sampled (l : List Entry) (u : Bool) (now : DateTime) :
    (calculate_work_hours l u now).current_time
      = if u = true ∧ ((runPass l).current_in).isSome = true then some now else none := by
  by_cases hl : l = []
  · subst hl
    rw [runPass_nil]
    simp [calculate_work_hours, emptySummary, initState]
  · have hcw : calculate_work_hours l u now = finalize (runPass l) u now := by
      simp [calculate_work_hours, hl]
    rw [hcw]
    rcases hc : (runPass l).current_in with _ | c
    · rw [finalize_none hc]
      simp [hc]
    · cases u
      · rw [finalize_false]
        simp
      · by_cases h : now.day = c.day ∧ c.toMin < now.toMin
        · rw [finalize_open_hit hc h]
          simp [hc]
        · rw [finalize_open_miss hc h]
          simp [hc]

/-- C4 counterexample: the two orderings of an In and an Out carrying the
same 09:00 timestamp are permutations of each other yet produce
different summaries (one break versus none), so the result is not
order-irrelevant. -/
theorem C4_counterexample :
    ([⟨t0900, EntryType.In⟩, ⟨t0900, EntryType.Out⟩] : List Entry).Perm
      [⟨t0900, EntryType.Out⟩, ⟨t0900, EntryType.In⟩]
    ∧ calculate_work_hours [⟨t0900, EntryType.In⟩, ⟨t0900, EntryType.Out⟩] false t1100
        ≠ calculate_work_hours [⟨t0900, EntryType.Out⟩, ⟨t0900, EntryType.In⟩] false t1100 := by
  constructor
  · decide
  · intro h
    have hb := congrArg Summary.breaks h
    exact absurd hb (by decide)

/-- C4 amended: when no two distinct events share a timestamp, the
summary depends only on the multiset of events: any permutation of the
input yields the same result for the same reading. -/
theorem C4_perm_invariant (l₁ l₂ : List Entry) (u : Bool) (now : DateTime)
    (hp : l₁.Perm l₂) (hnd : (l₁.map Entry.datetime).Nodup) :
    calculate_work_hours l₁ u now = calculate_work_hours l₂ u now := by
  by_cases h1 : l₁ = []
  · subst h1
    rw [hp.symm.eq_nil]
  · have h2 : l₂ ≠ [] := by
      intro h
      subst h
      exact h1 hp.eq_nil
    have hsort : sortEntries l₁ = sortEntries l₂ := sortEntries_eq_of_perm hp hnd
    simp [calculate_work_hours, h1, h2, runPass, normalizeEntries, hsort]

/-- C4 witness: two orders of distinct-time events give equal summaries. -/
theorem C4_witness :
    calculate_work_hours [⟨t1000, EntryType.In⟩, ⟨t0900, EntryType.In⟩] true t1100
      = calculate_work_hours [⟨t0900, EntryType.In⟩, ⟨t1000, EntryType.In⟩] true t1100 :=
  C4_perm_invariant _ _ true t1100 (by decide) (by decide)

end Attendance
